import Mathlib

/-!
Verification of the binary Byzantine agreement instance in
`src/agreement/mod.rs` (hbbft). The Rust code is shallowly embedded: the
`Agreement` struct becomes a Lean structure, each method becomes a function
from the pre-state to a result carrying the post-state, and the mutually
recursive handler/send family (`handle_bval` → `send_bval` → `handle_bval`,
…, `invoke_coin` → `handle_message`) is expressed as a single fuel-indexed
interpreter `exec` over a defunctionalised call type, so that every
definition is executable by the kernel. Fuel exhaustion is `Option.none`;
the Rust code always terminates, and every concrete run below is performed
with enough fuel.

Errors follow the Rust semantics of `&mut self` methods returning
`Result<(), Error>`: an error aborts the remaining work but keeps all
mutations made so far, so the error value carries the state at the point
of failure.
-/

namespace Hbbft

/-- Modelled from the spec: `src/agreement/bin_values.rs` is declared by
`pub mod bin_values;` but its source is not in the repository snapshot.
Per spec §3/§4.1, `BinValues` is a subset of `{false, true}` with four
inhabitants and operations `insert` (returns whether the set changed),
`contains`, `is_subset`, `definite` (the unique element of a singleton),
`clear`, and union via collection. -/
inductive BinValues
  | None
  | False
  | True
  | Both
deriving DecidableEq, Repr

namespace BinValues

def contains : BinValues → Bool → Bool
  | BinValues.None, _ => false
  | BinValues.False, b => !b
  | BinValues.True, b => b
  | BinValues.Both, _ => true

def fromBool (b : Bool) : BinValues :=
  if b then BinValues.True else BinValues.False

/-- Insert a bit; the first component reports whether the set changed. -/
def insert (v : BinValues) (b : Bool) : Bool × BinValues :=
  if v.contains b then (false, v)
  else
    match v with
    | BinValues.None => (true, fromBool b)
    | _ => (true, BinValues.Both)

def is_subset (v w : BinValues) : Bool :=
  match v with
  | BinValues.None => true
  | BinValues.False => w.contains false
  | BinValues.True => w.contains true
  | BinValues.Both => w.contains false && w.contains true

def definite : BinValues → Option Bool
  | BinValues.False => some false
  | BinValues.True => some true
  | _ => Option.none

def union : BinValues → BinValues → BinValues
  | BinValues.None, w => w
  | v, BinValues.None => v
  | BinValues.Both, _ => BinValues.Both
  | _, BinValues.Both => BinValues.Both
  | BinValues.False, BinValues.False => BinValues.False
  | BinValues.True, BinValues.True => BinValues.True
  | BinValues.False, BinValues.True => BinValues.Both
  | BinValues.True, BinValues.False => BinValues.Both

/-- Collecting an iterable of `BinValues` yields the union of its elements. -/
def collect (l : List BinValues) : BinValues :=
  l.foldl union BinValues.None

end BinValues

/-- `BTreeSet<bool>`: a set of booleans, recorded by two membership flags. -/
structure BoolSet where
  hasF : Bool
  hasT : Bool
deriving DecidableEq, Repr

namespace BoolSet

def empty : BoolSet := ⟨false, false⟩

def contains (s : BoolSet) (b : Bool) : Bool :=
  if b then s.hasT else s.hasF

def insert (s : BoolSet) (b : Bool) : BoolSet :=
  if b then { s with hasT := true } else { s with hasF := true }

end BoolSet

/-- The two error kinds of the `error_chain!` block in `mod.rs`. -/
inductive AgrError
  | InputNotAccepted
  | Terminated
deriving DecidableEq, Repr

/-- `enum AgreementContent`. -/
inductive AgreementContent
  | BVal (b : Bool)
  | Aux (b : Bool)
  | Conf (v : BinValues)
deriving DecidableEq, Repr

/-- `struct AgreementMessage { epoch: u32, content }`. The `u32` epoch is
modelled as `Nat`; no claim reaches the `2^32` wrap-around. -/
structure AgreementMessage where
  epoch : Nat
  content : AgreementContent
deriving DecidableEq, Repr

namespace AgreementMessage

def bval (epoch : Nat) (b : Bool) : AgreementMessage :=
  ⟨epoch, AgreementContent.BVal b⟩

def aux (epoch : Nat) (b : Bool) : AgreementMessage :=
  ⟨epoch, AgreementContent.Aux b⟩

def conf (epoch : Nat) (v : BinValues) : AgreementMessage :=
  ⟨epoch, AgreementContent.Conf v⟩

end AgreementMessage

/-- Modelled from the spec: the network info service (`messaging.rs`, not in
the snapshot) is the out-of-scope collaborator providing `num_nodes() = N`,
`num_faulty() = f` and `our_uid()`. Node identifiers are `Nat`. -/
structure NetworkInfo where
  our_uid : Nat
  num_nodes : Nat
  num_faulty : Nat
deriving DecidableEq, Repr

/-- `struct Agreement<NodeUid>` with `NodeUid = Nat`. The `BTreeMap`s become
association lists with at most one entry per key (iteration order does not
matter for any count or union the code computes). -/
structure Agreement where
  netinfo : NetworkInfo
  epoch : Nat
  bin_values : BinValues
  received_bval : List (Nat × BoolSet)
  sent_bval : BoolSet
  received_aux : List (Nat × Bool)
  received_conf : List (Nat × BinValues)
  estimated : Option Bool
  output : Option Bool
  decision : Option Bool
  incoming_queue : List (Nat × AgreementMessage)
  terminated : Bool
  messages : List AgreementMessage
  conf_round : Bool
deriving DecidableEq, Repr

/-- `BTreeMap::insert`: overwrite the value at a key, or append the entry. -/
def alInsert {α : Type} (k : Nat) (v : α) : List (Nat × α) → List (Nat × α)
  | [] => [(k, v)]
  | (k', v') :: rest =>
      if k = k' then (k, v) :: rest else (k', v') :: alInsert k v rest

/-- `BTreeMap::entry(k).or_insert_with(default)` followed by a value update. -/
def alModify {α : Type} (k : Nat) (d : α) (f : α → α) : List (Nat × α) → List (Nat × α)
  | [] => [(k, f d)]
  | (k', v') :: rest =>
      if k = k' then (k, f v') :: rest else (k', v') :: alModify k d f rest

namespace Agreement

/-- `Agreement::new`. -/
def new (netinfo : NetworkInfo) : Agreement where
  netinfo := netinfo
  epoch := 0
  bin_values := BinValues.None
  received_bval := []
  sent_bval := BoolSet.empty
  received_aux := []
  received_conf := []
  estimated := Option.none
  output := Option.none
  decision := Option.none
  incoming_queue := []
  terminated := false
  messages := []
  conf_round := false

/-- The count inside `handle_bval`: the number of senders whose received
`BVal` set contains `b`. -/
def bval_count (m : List (Nat × BoolSet)) (b : Bool) : Nat :=
  (m.filter fun p => p.2.contains b).length

/-- `Agreement::count_aux`. -/
def count_aux (s : Agreement) : Nat :=
  (s.received_aux.filter fun p => s.bin_values.contains p.2).length

/-- `Agreement::count_conf`: the number of received `Conf` values that are
subsets of `bin_values`, together with their union. -/
def count_conf (s : Agreement) : Nat × BinValues :=
  let l := s.received_conf.filter fun p => p.2.is_subset s.bin_values
  (l.length, BinValues.collect (l.map fun p => p.2))

/-- `Agreement::start_next_epoch`. -/
def start_next_epoch (s : Agreement) : Agreement :=
  { s with
      bin_values := BinValues.None
      received_bval := []
      sent_bval := BoolSet.empty
      received_aux := []
      received_conf := []
      conf_round := false
      epoch := s.epoch + 1 }

/-- `Agreement::accepts_input`. -/
def accepts_input (s : Agreement) : Bool :=
  decide (s.epoch = 0) && s.estimated.isNone

/-- `DistAlgorithm::next_message`: pop the oldest outbound message (tagged
`Target::All` by the caller). -/
def next_message (s : Agreement) : Option AgreementMessage × Agreement :=
  (s.messages.head?, { s with messages := s.messages.tail })

/-- `DistAlgorithm::next_output`: `self.output.take()`. -/
def next_output (s : Agreement) : Option Bool × Agreement :=
  (s.output, { s with output := Option.none })

end Agreement

/-- The result of a fallible `&mut self` method: `Option.none` is fuel
exhaustion, and an error carries the state at the point of failure. -/
abbrev AResult := Option (Except (AgrError × Agreement) Agreement)

/-- Sequencing of fallible calls: Rust's `?`. -/
def obind (x : AResult) (f : Agreement → AResult) : AResult :=
  match x with
  | Option.none => Option.none
  | some (Except.error p) => some (Except.error p)
  | some (Except.ok s) => f s

/-- The defunctionalised private methods of `Agreement`, in source order. -/
inductive Call
  | hmsg (sender : Nat) (m : AgreementMessage)
  | hbval (sender : Nat) (b : Bool)
  | sbval (b : Bool)
  | sconf
  | haux (sender : Nat) (b : Bool)
  | hconf (sender : Nat) (v : BinValues)
  | tfin
  | saux (b : Bool)
  | icoin (vals : BinValues)
  | replay (msgs : List (Nat × AgreementMessage))

/-- The interpreter of the mutually recursive method family of
`Agreement`, one fuel unit per nested call. Each `Call` case is the direct
translation of the corresponding method body in `mod.rs`. -/
def exec : Nat → Agreement → Call → AResult
  | 0, _, _ => Option.none
  | n + 1, s, c =>
    match c with
    | Call.hmsg sender m =>
        if s.terminated then some (Except.error (AgrError.Terminated, s))
        else if m.epoch < s.epoch then some (Except.ok s)
        else if s.epoch < m.epoch then
          some (Except.ok { s with incoming_queue := s.incoming_queue ++ [(sender, m)] })
        else
          match m.content with
          | AgreementContent.BVal b => exec n s (Call.hbval sender b)
          | AgreementContent.Aux b => exec n s (Call.haux sender b)
          | AgreementContent.Conf v => exec n s (Call.hconf sender v)
    | Call.hbval sender b =>
        let s1 : Agreement :=
          { s with received_bval :=
              alModify sender BoolSet.empty (fun t => t.insert b) s.received_bval }
        let count_bval := Agreement.bval_count s1.received_bval b
        if count_bval = 2 * s1.netinfo.num_faulty + 1 then
          let previous_bin_values := s1.bin_values
          let ins := s1.bin_values.insert b
          let s2 : Agreement := { s1 with bin_values := ins.2 }
          if previous_bin_values = BinValues.None then exec n s2 (Call.saux b)
          else if ins.1 then exec n s2 Call.tfin
          else some (Except.ok s2)
        else if count_bval = s1.netinfo.num_faulty + 1 ∧ s1.sent_bval.contains b = false then
          exec n s1 (Call.sbval b)
        else some (Except.ok s1)
    | Call.sbval b =>
        let s1 : Agreement :=
          { s with
              sent_bval := s.sent_bval.insert b
              messages := s.messages ++ [AgreementMessage.bval s.epoch b] }
        exec n s1 (Call.hbval s1.netinfo.our_uid b)
    | Call.sconf =>
        if s.conf_round then some (Except.ok s)
        else
          let v := s.bin_values
          let s1 : Agreement :=
            { s with
                messages := s.messages ++ [AgreementMessage.conf s.epoch v]
                conf_round := true }
          exec n s1 (Call.hconf s1.netinfo.our_uid v)
    | Call.haux sender b =>
        if s.conf_round then some (Except.ok s)
        else
          let s1 : Agreement := { s with received_aux := alInsert sender b s.received_aux }
          if s1.bin_values = BinValues.None then some (Except.ok s1)
          else if Agreement.count_aux s1 < s1.netinfo.num_nodes - s1.netinfo.num_faulty then
            some (Except.ok s1)
          else exec n s1 Call.sconf
    | Call.hconf sender v =>
        let s1 : Agreement := { s with received_conf := alInsert sender v s.received_conf }
        exec n s1 Call.tfin
    | Call.tfin =>
        if s.conf_round then
          let cc := Agreement.count_conf s
          if cc.1 < s.netinfo.num_nodes - s.netinfo.num_faulty then some (Except.ok s)
          else exec n s (Call.icoin cc.2)
        else some (Except.ok s)
    | Call.saux b =>
        let s1 : Agreement := { s with messages := s.messages ++ [AgreementMessage.aux s.epoch b] }
        exec n s1 (Call.haux s1.netinfo.our_uid b)
    | Call.icoin vals =>
        let coin := decide (s.epoch % 2 = 0)
        if s.terminated = true ∨ s.decision = some coin then
          some (Except.ok { s with terminated := true })
        else
          let s2 := s.start_next_epoch
          let p : Bool × Agreement :=
            match vals.definite with
            | some b =>
                (b,
                 if s2.decision = Option.none ∧ b = coin then
                   { s2 with estimated := some b, output := some b, decision := some b }
                 else { s2 with estimated := some b })
            | Option.none => (coin, { s2 with estimated := some coin })
          obind (exec n p.2 (Call.sbval p.1)) fun s4 =>
            exec n { s4 with incoming_queue := [] } (Call.replay s4.incoming_queue)
    | Call.replay msgs =>
        match msgs with
        | [] => some (Except.ok s)
        | (sender, m) :: rest =>
            obind (exec n s (Call.hmsg sender m)) fun s' => exec n s' (Call.replay rest)

namespace Agreement

/-- `DistAlgorithm::handle_message`. -/
def handle_message (n : Nat) (s : Agreement) (sender : Nat) (m : AgreementMessage) : AResult :=
  exec n s (Call.hmsg sender m)

/-- `Agreement::handle_bval`. -/
def handle_bval (n : Nat) (s : Agreement) (sender : Nat) (b : Bool) : AResult :=
  exec n s (Call.hbval sender b)

/-- `Agreement::send_bval`. -/
def send_bval (n : Nat) (s : Agreement) (b : Bool) : AResult :=
  exec n s (Call.sbval b)

/-- `Agreement::send_conf`. -/
def send_conf (n : Nat) (s : Agreement) : AResult :=
  exec n s Call.sconf

/-- `Agreement::handle_aux`. -/
def handle_aux (n : Nat) (s : Agreement) (sender : Nat) (b : Bool) : AResult :=
  exec n s (Call.haux sender b)

/-- `Agreement::handle_conf`. -/
def handle_conf (n : Nat) (s : Agreement) (sender : Nat) (v : BinValues) : AResult :=
  exec n s (Call.hconf sender v)

/-- `Agreement::try_finish_conf_round`. -/
def try_finish_conf_round (n : Nat) (s : Agreement) : AResult :=
  exec n s Call.tfin

/-- `Agreement::send_aux`. -/
def send_aux (n : Nat) (s : Agreement) (b : Bool) : AResult :=
  exec n s (Call.saux b)

/-- `Agreement::invoke_coin`. -/
def invoke_coin (n : Nat) (s : Agreement) (vals : BinValues) : AResult :=
  exec n s (Call.icoin vals)

/-- The replay loop at the end of `invoke_coin`. -/
def replay (n : Nat) (s : Agreement) (msgs : List (Nat × AgreementMessage)) : AResult :=
  exec n s (Call.replay msgs)

/-- `Agreement::set_input`. The `N == 1` special case falls through to the
general case in the source: there is no early return, so both branches
continue with `estimated := some input` followed by `send_bval(input)`. -/
def set_input (n : Nat) (s : Agreement) (input : Bool) : AResult :=
  if s.epoch ≠ 0 ∨ s.estimated.isSome then
    some (Except.error (AgrError.InputNotAccepted, s))
  else if s.netinfo.num_nodes = 1 then
    exec n
      { s with
          decision := some input
          output := some input
          terminated := true
          estimated := some input }
      (Call.sbval input)
  else
    exec n { s with estimated := some input } (Call.sbval input)

end Agreement

/-- The post-state of a call: the success state, the state carried by the
error, or (on fuel exhaustion, which never occurs in the runs below) the
given fallback. -/
def stOf : AResult → Agreement → Agreement
  | some (Except.ok s), _ => s
  | some (Except.error p), _ => p.2
  | Option.none, d => d

/-- The error of a call, if any. -/
def errOf : AResult → Option AgrError
  | some (Except.error p) => some p.1
  | _ => Option.none

end Hbbft

/-! ## Message counters and the reachable-state invariant -/

namespace Hbbft

/-- Recognise a `BVal(e, b)` message. -/
def mIsBVal (e : Nat) (b : Bool) (m : AgreementMessage) : Bool :=
  match m.content with
  | AgreementContent.BVal b' => decide (m.epoch = e) && decide (b' = b)
  | _ => false

/-- Recognise an `Aux` message of epoch `e`. -/
def mIsAux (e : Nat) (m : AgreementMessage) : Bool :=
  match m.content with
  | AgreementContent.Aux _ => decide (m.epoch = e)
  | _ => false

/-- Recognise a `Conf` message of epoch `e`. -/
def mIsConf (e : Nat) (m : AgreementMessage) : Bool :=
  match m.content with
  | AgreementContent.Conf _ => decide (m.epoch = e)
  | _ => false

/-- Recognise any message of epoch `e`. -/
def mIsEp (e : Nat) (m : AgreementMessage) : Bool :=
  decide (m.epoch = e)

def cntBVal (e : Nat) (b : Bool) (l : List AgreementMessage) : Nat :=
  l.countP (mIsBVal e b)

def cntAuxE (e : Nat) (l : List AgreementMessage) : Nat :=
  l.countP (mIsAux e)

def cntConfE (e : Nat) (l : List AgreementMessage) : Nat :=
  l.countP (mIsConf e)

def cntEp (e : Nat) (l : List AgreementMessage) : Nat :=
  l.countP (mIsEp e)

/-- Boolean indicator. -/
def ind (b : Bool) : Nat := if b then 1 else 0

/-- The state invariant maintained by every operation of the instance.
`sentCnt`/`bvalCnt` bound the `BVal` messages of the current epoch by the
`sent_bval` and `estimated` flags, `auxNone`/`auxCnt` and `confCnt` tie the
`Aux` and `Conf` messages of the current epoch to `bin_values` and
`conf_round`, `future` says no message of a later epoch was ever enqueued,
`past` is what the per-epoch bounds degrade to once the epoch advances,
and `estNone`/`outDec` relate `estimated`, `output` and `decision`. -/
structure Inv (s : Agreement) : Prop where
  sentCnt : ∀ b, s.sent_bval.contains b = false → cntBVal s.epoch b s.messages = 0
  bvalCnt : ∀ b, cntBVal s.epoch b s.messages ≤ ind (s.sent_bval.contains b) + ind s.estimated.isSome
  auxNone : s.bin_values = BinValues.None → cntAuxE s.epoch s.messages = 0
  auxCnt : cntAuxE s.epoch s.messages ≤ 1
  confCnt : cntConfE s.epoch s.messages ≤ ind s.conf_round
  future : ∀ e, s.epoch < e → cntEp e s.messages = 0
  past : ∀ e, e < s.epoch →
      (∀ b, cntBVal e b s.messages ≤ 2) ∧ cntAuxE e s.messages ≤ 1 ∧ cntConfE e s.messages ≤ 1
  estNone : s.estimated = Option.none → s.decision = Option.none
  outDec : ∀ b, s.output = some b → s.decision = some b

/-- Preconditions under which a private call keeps the invariant: `send_bval`
may enqueue a second `BVal(epoch, b)` only on behalf of `set_input`, and
`send_aux` is only ever invoked for the first bit entering `bin_values`. -/
def callPre : Call → Agreement → Prop
  | Call.sbval b, s => cntBVal s.epoch b s.messages ≤ ind s.estimated.isSome
  | Call.saux _, s => s.bin_values ≠ BinValues.None ∧ cntAuxE s.epoch s.messages = 0
  | _, _ => True

end Hbbft

namespace Hbbft

theorem countP_snoc (p : AgreementMessage → Bool) (l : List AgreementMessage) (m : AgreementMessage) :
    (l ++ [m]).countP p = l.countP p + if p m then 1 else 0 := by
  rw [List.countP_append, List.countP_singleton]

theorem cntBVal_snoc_bval (e e' : Nat) (b b' : Bool) (l : List AgreementMessage) :
    cntBVal e b (l ++ [AgreementMessage.bval e' b']) =
      cntBVal e b l + if e' = e ∧ b' = b then 1 else 0 := by
  unfold cntBVal
  rw [countP_snoc]
  simp [mIsBVal, AgreementMessage.bval]

theorem cntBVal_snoc_aux (e e' : Nat) (b b' : Bool) (l : List AgreementMessage) :
    cntBVal e b (l ++ [AgreementMessage.aux e' b']) = cntBVal e b l := by
  unfold cntBVal
  rw [countP_snoc]
  simp [mIsBVal, AgreementMessage.aux]

theorem cntBVal_snoc_conf (e e' : Nat) (b : Bool) (v : BinValues) (l : List AgreementMessage) :
    cntBVal e b (l ++ [AgreementMessage.conf e' v]) = cntBVal e b l := by
  unfold cntBVal
  rw [countP_snoc]
  simp [mIsBVal, AgreementMessage.conf]

theorem cntAuxE_snoc_bval (e e' : Nat) (b : Bool) (l : List AgreementMessage) :
    cntAuxE e (l ++ [AgreementMessage.bval e' b]) = cntAuxE e l := by
  unfold cntAuxE
  rw [countP_snoc]
  simp [mIsAux, AgreementMessage.bval]

theorem cntAuxE_snoc_aux (e e' : Nat) (b : Bool) (l : List AgreementMessage) :
    cntAuxE e (l ++ [AgreementMessage.aux e' b]) = cntAuxE e l + if e' = e then 1 else 0 := by
  unfold cntAuxE
  rw [countP_snoc]
  simp [mIsAux, AgreementMessage.aux]

theorem cntAuxE_snoc_conf (e e' : Nat) (v : BinValues) (l : List AgreementMessage) :
    cntAuxE e (l ++ [AgreementMessage.conf e' v]) = cntAuxE e l := by
  unfold cntAuxE
  rw [countP_snoc]
  simp [mIsAux, AgreementMessage.conf]

theorem cntConfE_snoc_bval (e e' : Nat) (b : Bool) (l : List AgreementMessage) :
    cntConfE e (l ++ [AgreementMessage.bval e' b]) = cntConfE e l := by
  unfold cntConfE
  rw [countP_snoc]
  simp [mIsConf, AgreementMessage.bval]

theorem cntConfE_snoc_aux (e e' : Nat) (b : Bool) (l : List AgreementMessage) :
    cntConfE e (l ++ [AgreementMessage.aux e' b]) = cntConfE e l := by
  unfold cntConfE
  rw [countP_snoc]
  simp [mIsConf, AgreementMessage.aux]

theorem cntConfE_snoc_conf (e e' : Nat) (v : BinValues) (l : List AgreementMessage) :
    cntConfE e (l ++ [AgreementMessage.conf e' v]) = cntConfE e l + if e' = e then 1 else 0 := by
  unfold cntConfE
  rw [countP_snoc]
  simp [mIsConf, AgreementMessage.conf]

theorem cntEp_snoc (e : Nat) (m : AgreementMessage) (l : List AgreementMessage) :
    cntEp e (l ++ [m]) = cntEp e l + if m.epoch = e then 1 else 0 := by
  unfold cntEp
  rw [countP_snoc]
  simp [mIsEp]

theorem mIsBVal_ep {e : Nat} {b : Bool} {m : AgreementMessage} (h : mIsBVal e b m = true) :
    mIsEp e m = true := by
  obtain ⟨ep, c⟩ := m
  cases c <;> simp [mIsBVal, mIsEp] at h ⊢ <;> exact h.1

theorem mIsAux_ep {e : Nat} {m : AgreementMessage} (h : mIsAux e m = true) :
    mIsEp e m = true := by
  obtain ⟨ep, c⟩ := m
  cases c <;> simp [mIsAux, mIsEp] at h ⊢ <;> exact h

theorem mIsConf_ep {e : Nat} {m : AgreementMessage} (h : mIsConf e m = true) :
    mIsEp e m = true := by
  obtain ⟨ep, c⟩ := m
  cases c <;> simp [mIsConf, mIsEp] at h ⊢ <;> exact h

theorem cntBVal_zero_of_ep {e : Nat} {l : List AgreementMessage} (h : cntEp e l = 0) (b : Bool) :
    cntBVal e b l = 0 :=
  Nat.le_zero.mp (h ▸ List.countP_mono_left fun _ _ hm => mIsBVal_ep hm)

theorem cntAuxE_zero_of_ep {e : Nat} {l : List AgreementMessage} (h : cntEp e l = 0) :
    cntAuxE e l = 0 :=
  Nat.le_zero.mp (h ▸ List.countP_mono_left fun _ _ hm => mIsAux_ep hm)

theorem cntConfE_zero_of_ep {e : Nat} {l : List AgreementMessage} (h : cntEp e l = 0) :
    cntConfE e l = 0 :=
  Nat.le_zero.mp (h ▸ List.countP_mono_left fun _ _ hm => mIsConf_ep hm)

theorem ind_le_one (b : Bool) : ind b ≤ 1 := by
  cases b <;> simp [ind]

theorem BoolSet.contains_insert (t : BoolSet) (b b' : Bool) :
    (t.insert b).contains b' = if b' = b then true else t.contains b' := by
  cases b <;> cases b' <;> simp [BoolSet.insert, BoolSet.contains]

theorem BinValues.insert_ne_none (v : BinValues) (b : Bool) :
    (v.insert b).2 ≠ BinValues.None := by
  cases v <;> cases b <;> decide

end Hbbft

namespace Hbbft

theorem Inv.set_rbval {s : Agreement} (h : Inv s) (x : List (Nat × BoolSet)) :
    Inv { s with received_bval := x } :=
  ⟨h.sentCnt, h.bvalCnt, h.auxNone, h.auxCnt, h.confCnt, h.future, h.past, h.estNone, h.outDec⟩

theorem Inv.set_raux {s : Agreement} (h : Inv s) (x : List (Nat × Bool)) :
    Inv { s with received_aux := x } :=
  ⟨h.sentCnt, h.bvalCnt, h.auxNone, h.auxCnt, h.confCnt, h.future, h.past, h.estNone, h.outDec⟩

theorem Inv.set_rconf {s : Agreement} (h : Inv s) (x : List (Nat × BinValues)) :
    Inv { s with received_conf := x } :=
  ⟨h.sentCnt, h.bvalCnt, h.auxNone, h.auxCnt, h.confCnt, h.future, h.past, h.estNone, h.outDec⟩

theorem Inv.set_queue {s : Agreement} (h : Inv s) (q : List (Nat × AgreementMessage)) :
    Inv { s with incoming_queue := q } :=
  ⟨h.sentCnt, h.bvalCnt, h.auxNone, h.auxCnt, h.confCnt, h.future, h.past, h.estNone, h.outDec⟩

theorem Inv.set_term {s : Agreement} (h : Inv s) (t : Bool) :
    Inv { s with terminated := t } :=
  ⟨h.sentCnt, h.bvalCnt, h.auxNone, h.auxCnt, h.confCnt, h.future, h.past, h.estNone, h.outDec⟩

/-- `bin_values` may be replaced by any value that is `None` only if the old
value was (in the code it only ever grows within an epoch). -/
theorem Inv.set_bin {s : Agreement} (h : Inv s) (v : BinValues)
    (hv : v = BinValues.None → s.bin_values = BinValues.None) :
    Inv { s with bin_values := v } :=
  ⟨h.sentCnt, h.bvalCnt, fun h0 => h.auxNone (hv h0), h.auxCnt, h.confCnt, h.future, h.past,
   h.estNone, h.outDec⟩

theorem Inv.set_est_some {s : Agreement} (h : Inv s) (x : Bool) :
    Inv { s with estimated := some x } := by
  refine ⟨h.sentCnt, ?_, h.auxNone, h.auxCnt, h.confCnt, h.future, h.past, ?_, h.outDec⟩
  · intro b
    refine le_trans (h.bvalCnt b) (Nat.add_le_add_left ?_ _)
    exact le_trans (ind_le_one _) (le_of_eq rfl)
  · intro hx
    exact absurd hx (by simp)

theorem Inv.latch {s : Agreement} (h : Inv s) (x : Bool) :
    Inv { s with estimated := some x, output := some x, decision := some x } := by
  refine ⟨h.sentCnt, ?_, h.auxNone, h.auxCnt, h.confCnt, h.future, h.past, ?_, ?_⟩
  · intro b
    refine le_trans (h.bvalCnt b) (Nat.add_le_add_left ?_ _)
    exact le_trans (ind_le_one _) (le_of_eq rfl)
  · intro hx
    exact absurd hx (by simp)
  · intro b hb
    exact hb

theorem Inv.out_none {s : Agreement} (h : Inv s) :
    Inv { s with output := Option.none } := by
  refine ⟨h.sentCnt, h.bvalCnt, h.auxNone, h.auxCnt, h.confCnt, h.future, h.past, h.estNone, ?_⟩
  intro b hb
  exact absurd hb (by simp)

theorem Inv.pop {s : Agreement} (h : Inv s) :
    Inv { s with messages := s.messages.tail } := by
  refine ⟨?_, ?_, ?_, ?_, ?_, ?_, ?_, h.estNone, h.outDec⟩
  · intro b hb
    exact Nat.le_zero.mp (h.sentCnt b hb ▸ List.countP_tail_le _ _)
  · intro b
    exact le_trans (List.countP_tail_le _ _) (h.bvalCnt b)
  · intro h0
    exact Nat.le_zero.mp (h.auxNone h0 ▸ List.countP_tail_le _ _)
  · exact le_trans (List.countP_tail_le _ _) h.auxCnt
  · exact le_trans (List.countP_tail_le _ _) h.confCnt
  · intro e he
    exact Nat.le_zero.mp (h.future e he ▸ List.countP_tail_le _ _)
  · intro e he
    exact ⟨fun b => le_trans (List.countP_tail_le _ _) ((h.past e he).1 b),
      le_trans (List.countP_tail_le _ _) (h.past e he).2.1,
      le_trans (List.countP_tail_le _ _) (h.past e he).2.2⟩

/-- Appending `BVal(epoch, b)` while recording `b` in `sent_bval`: the case
split of `send_bval`. The count hypothesis is satisfied at every call site. -/
theorem inv_snoc_bval {s : Agreement} (h : Inv s) (b : Bool)
    (hcnt : cntBVal s.epoch b s.messages ≤ ind s.estimated.isSome) :
    Inv { s with
            sent_bval := s.sent_bval.insert b
            messages := s.messages ++ [AgreementMessage.bval s.epoch b] } := by
  refine ⟨?_, ?_, ?_, ?_, ?_, ?_, ?_, h.estNone, h.outDec⟩
  · intro b' hb'
    rw [BoolSet.contains_insert] at hb'
    by_cases hbb : b' = b
    · rw [if_pos hbb] at hb'
      cases hb'
    · rw [if_neg hbb] at hb'
      rw [cntBVal_snoc_bval]
      rw [if_neg (by intro hc; exact hbb hc.2.symm)]
      simpa using h.sentCnt b' hb'
  · intro b'
    rw [cntBVal_snoc_bval, BoolSet.contains_insert]
    by_cases hbb : b' = b
    · subst hbb
      rw [if_pos ⟨rfl, rfl⟩, if_pos rfl]
      calc cntBVal s.epoch b' s.messages + 1 ≤ ind s.estimated.isSome + 1 :=
            Nat.add_le_add_right hcnt 1
        _ = ind true + ind s.estimated.isSome := by simp [ind, Nat.add_comm]
    · rw [if_neg (by intro hc; exact hbb hc.2.symm), if_neg hbb]
      simpa using h.bvalCnt b'
  · intro h0
    rw [cntAuxE_snoc_bval]
    exact h.auxNone h0
  · rw [cntAuxE_snoc_bval]
    exact h.auxCnt
  · rw [cntConfE_snoc_bval]
    exact h.confCnt
  · intro e he
    have he' : s.epoch < e := he
    rw [cntEp_snoc]
    rw [if_neg (by simp [AgreementMessage.bval]; omega)]
    simpa using h.future e he
  · intro e he
    have he' : e < s.epoch := he
    refine ⟨?_, ?_, ?_⟩
    · intro b'
      rw [cntBVal_snoc_bval, if_neg (by intro hc; omega)]
      simpa using (h.past e he).1 b'
    · rw [cntAuxE_snoc_bval]
      exact (h.past e he).2.1
    · rw [cntConfE_snoc_bval]
      exact (h.past e he).2.2

/-- Appending `Aux(epoch, b)`: only done for the first bit entering
`bin_values`, so the current epoch had no `Aux` message yet. -/
theorem inv_snoc_aux {s : Agreement} (h : Inv s) (b : Bool)
    (hbin : s.bin_values ≠ BinValues.None)
    (hcnt : cntAuxE s.epoch s.messages = 0) :
    Inv { s with messages := s.messages ++ [AgreementMessage.aux s.epoch b] } := by
  refine ⟨?_, ?_, ?_, ?_, ?_, ?_, ?_, h.estNone, h.outDec⟩
  · intro b' hb'
    rw [cntBVal_snoc_aux]
    exact h.sentCnt b' hb'
  · intro b'
    rw [cntBVal_snoc_aux]
    exact h.bvalCnt b'
  · intro h0
    exact absurd h0 hbin
  · rw [cntAuxE_snoc_aux, if_pos rfl, hcnt]
  · rw [cntConfE_snoc_aux]
    exact h.confCnt
  · intro e he
    have he' : s.epoch < e := he
    rw [cntEp_snoc, if_neg (by simp [AgreementMessage.aux]; omega)]
    simpa using h.future e he
  · intro e he
    have he' : e < s.epoch := he
    refine ⟨?_, ?_, ?_⟩
    · intro b'
      rw [cntBVal_snoc_aux]
      exact (h.past e he).1 b'
    · rw [cntAuxE_snoc_aux, if_neg (by omega)]
      simpa using (h.past e he).2.1
    · rw [cntConfE_snoc_aux]
      exact (h.past e he).2.2

/-- Appending `Conf(epoch, v)` while starting the `Conf` round: `send_conf`
guards on `conf_round`, so at most one `Conf` per epoch. -/
theorem inv_snoc_conf {s : Agreement} (h : Inv s) (v : BinValues)
    (hcr : s.conf_round = false) :
    Inv { s with
            messages := s.messages ++ [AgreementMessage.conf s.epoch v]
            conf_round := true } := by
  have hc0 : cntConfE s.epoch s.messages = 0 := by
    have := h.confCnt
    rw [hcr] at this
    simpa [ind] using this
  refine ⟨?_, ?_, ?_, ?_, ?_, ?_, ?_, h.estNone, h.outDec⟩
  · intro b' hb'
    rw [cntBVal_snoc_conf]
    exact h.sentCnt b' hb'
  · intro b'
    rw [cntBVal_snoc_conf]
    exact h.bvalCnt b'
  · intro h0
    rw [cntAuxE_snoc_conf]
    exact h.auxNone h0
  · rw [cntAuxE_snoc_conf]
    exact h.auxCnt
  · rw [cntConfE_snoc_conf, if_pos rfl, hc0]
    simp [ind]
  · intro e he
    have he' : s.epoch < e := he
    rw [cntEp_snoc, if_neg (by simp [AgreementMessage.conf]; omega)]
    simpa using h.future e he
  · intro e he
    have he' : e < s.epoch := he
    refine ⟨?_, ?_, ?_⟩
    · intro b'
      rw [cntBVal_snoc_conf]
      exact (h.past e he).1 b'
    · rw [cntAuxE_snoc_conf]
      exact (h.past e he).2.1
    · rw [cntConfE_snoc_conf, if_neg (by omega)]
      simpa using (h.past e he).2.2

/-- The per-epoch bounds survive an epoch advance. -/
theorem inv_advance {s : Agreement} (h : Inv s) : Inv s.start_next_epoch := by
  have hz : cntEp (s.epoch + 1) s.messages = 0 := h.future _ (Nat.lt_succ_self _)
  refine ⟨?_, ?_, ?_, ?_, ?_, ?_, ?_, h.estNone, h.outDec⟩
  · intro b _
    exact cntBVal_zero_of_ep hz b
  · intro b
    rw [show cntBVal (s.start_next_epoch).epoch b (s.start_next_epoch).messages =
          cntBVal (s.epoch + 1) b s.messages from rfl, cntBVal_zero_of_ep hz b]
    exact Nat.zero_le _
  · intro _
    exact cntAuxE_zero_of_ep hz
  · rw [show cntAuxE (s.start_next_epoch).epoch (s.start_next_epoch).messages =
          cntAuxE (s.epoch + 1) s.messages from rfl, cntAuxE_zero_of_ep hz]
    exact Nat.zero_le _
  · rw [show cntConfE (s.start_next_epoch).epoch (s.start_next_epoch).messages =
          cntConfE (s.epoch + 1) s.messages from rfl, cntConfE_zero_of_ep hz]
    exact Nat.zero_le _
  · intro e he
    exact h.future e (by exact Nat.lt_of_succ_lt he)
  · intro e he
    rcases Nat.lt_succ_iff_lt_or_eq.mp he with he' | he'
    · exact h.past e he'
    · subst he'
      refine ⟨?_, h.auxCnt, le_trans h.confCnt (ind_le_one _)⟩
      intro b
      refine le_trans (h.bvalCnt b) ?_
      calc ind (s.sent_bval.contains b) + ind s.estimated.isSome
          ≤ 1 + 1 := Nat.add_le_add (ind_le_one _) (ind_le_one _)
        _ = 2 := rfl

end Hbbft

namespace Hbbft

theorem obind_err {r : AResult} {f : Agreement → AResult} {e : AgrError} {s' : Agreement}
    (h : obind r f = some (Except.error (e, s')))
    (h1 : ∀ e₁ s₁, r = some (Except.error (e₁, s₁)) → e₁ = AgrError.Terminated)
    (h2 : ∀ s₂ e₂ s₃, r = some (Except.ok s₂) → f s₂ = some (Except.error (e₂, s₃)) →
      e₂ = AgrError.Terminated) :
    e = AgrError.Terminated := by
  rcases hr : r with _ | x
  · rw [hr] at h
    simp [obind] at h
  · rcases x with p | s₂
    · obtain ⟨e₁, s₁⟩ := p
      rw [hr] at h
      simp only [obind] at h
      simp at h
      exact h.1 ▸ h1 e₁ s₁ hr
    · rw [hr] at h
      simp only [obind] at h
      exact h2 s₂ e s' hr h

theorem exec_err (n : Nat) :
    ∀ (c : Call) (s : Agreement) (e : AgrError) (s' : Agreement),
      exec n s c = some (Except.error (e, s')) → e = AgrError.Terminated := by
  induction n with
  | zero =>
      intro c s e s' h
      simp [exec] at h
  | succ n ih =>
      intro c s e s' h
      cases c with
      | hmsg sender m =>
          simp only [exec] at h
          split at h
          · simp at h
            exact h.1.symm
          · split at h
            · simp at h
            · split at h
              · simp at h
              · split at h
                · exact ih _ _ _ _ h
                · exact ih _ _ _ _ h
                · exact ih _ _ _ _ h
      | hbval sender b =>
          simp only [exec] at h
          split at h
          · split at h
            · exact ih _ _ _ _ h
            · split at h
              · exact ih _ _ _ _ h
              · simp at h
          · split at h
            · exact ih _ _ _ _ h
            · simp at h
      | sbval b =>
          simp only [exec] at h
          exact ih _ _ _ _ h
      | sconf =>
          simp only [exec] at h
          split at h
          · simp at h
          · exact ih _ _ _ _ h
      | haux sender b =>
          simp only [exec] at h
          split at h
          · simp at h
          · split at h
            · simp at h
            · split at h
              · simp at h
              · exact ih _ _ _ _ h
      | hconf sender v =>
          simp only [exec] at h
          exact ih _ _ _ _ h
      | tfin =>
          simp only [exec] at h
          split at h
          · split at h
            · simp at h
            · exact ih _ _ _ _ h
          · simp at h
      | saux b =>
          simp only [exec] at h
          exact ih _ _ _ _ h
      | icoin vals =>
          simp only [exec] at h
          split at h
          · simp at h
          · refine obind_err h ?_ ?_
            · intro e₁ s₁ hp
              exact ih _ _ _ _ hp
            · intro s₂ e₂ s₃ _ hp
              exact ih _ _ _ _ hp
      | replay msgs =>
          cases msgs with
          | nil =>
              simp only [exec] at h
              simp at h
          | cons q tl =>
              obtain ⟨sender, m⟩ := q
              simp only [exec] at h
              refine obind_err h ?_ ?_
              · intro e₁ s₁ hp
                exact ih _ _ _ _ hp
              · intro s₂ e₂ s₃ _ hp
                exact ih _ _ _ _ hp

end Hbbft

namespace Hbbft

theorem dpres_fallback {r : AResult} {a b : Agreement} {d : Bool}
    (hb : b.decision = some d) (h : (stOf r a).decision = some d) :
    (stOf r b).decision = some d := by
  rcases r with _ | x
  · exact hb
  · rcases x with p | s₂
    · exact h
    · exact h

theorem dpres_obind {r : AResult} {f : Agreement → AResult} {s : Agreement} {d : Bool}
    (hs : s.decision = some d)
    (h1 : ∀ e₁ s₁, r = some (Except.error (e₁, s₁)) → s₁.decision = some d)
    (h2 : ∀ s₂, r = some (Except.ok s₂) → (stOf (f s₂) s).decision = some d) :
    (stOf (obind r f) s).decision = some d := by
  rcases hr : r with _ | x
  · exact hs
  · rcases x with p | s₂
    · obtain ⟨e₁, s₁⟩ := p
      exact h1 e₁ s₁ hr
    · exact h2 s₂ hr

theorem exec_dpres (n : Nat) :
    ∀ (c : Call) (s : Agreement) (d : Bool), s.decision = some d →
      (stOf (exec n s c) s).decision = some d := by
  induction n with
  | zero =>
      intro c s d hd
      exact hd
  | succ n ih =>
      intro c s d hd
      cases c with
      | hmsg sender m =>
          obtain ⟨me, mc⟩ := m
          simp only [exec]
          split
          · exact hd
          · split
            · exact hd
            · split
              · exact hd
              · cases mc
                · exact dpres_fallback hd (ih _ _ _ hd)
                · exact dpres_fallback hd (ih _ _ _ hd)
                · exact dpres_fallback hd (ih _ _ _ hd)
      | hbval sender b =>
          simp only [exec]
          split
          · split
            · exact dpres_fallback hd (ih _ _ _ hd)
            · split
              · exact dpres_fallback hd (ih _ _ _ hd)
              · exact hd
          · split
            · exact dpres_fallback hd (ih _ _ _ hd)
            · exact hd
      | sbval b =>
          simp only [exec]
          exact dpres_fallback hd (ih _ _ _ hd)
      | sconf =>
          simp only [exec]
          split
          · exact hd
          · exact dpres_fallback hd (ih _ _ _ hd)
      | haux sender b =>
          simp only [exec]
          split
          · exact hd
          · split
            · exact hd
            · split
              · exact hd
              · exact dpres_fallback hd (ih _ _ _ hd)
      | hconf sender v =>
          simp only [exec]
          exact dpres_fallback hd (ih _ _ _ hd)
      | tfin =>
          simp only [exec]
          split
          · split
            · exact hd
            · exact dpres_fallback hd (ih _ _ _ hd)
          · exact hd
      | saux b =>
          simp only [exec]
          exact dpres_fallback hd (ih _ _ _ hd)
      | icoin vals =>
          simp only [exec]
          split
          · exact hd
          · cases hdef : vals.definite with
            | none =>
                simp only [hdef]
                refine dpres_obind hd ?_ ?_
                · intro e₁ s₁ hp
                  have h3 := ih (Call.sbval (decide (s.epoch % 2 = 0)))
                    { s.start_next_epoch with estimated := some (decide (s.epoch % 2 = 0)) } d hd
                  rw [hp] at h3
                  exact h3
                · intro s₂ hp
                  have h3 := ih (Call.sbval (decide (s.epoch % 2 = 0)))
                    { s.start_next_epoch with estimated := some (decide (s.epoch % 2 = 0)) } d hd
                  rw [hp] at h3
                  exact dpres_fallback hd (ih _ _ _ h3)
            | some b =>
                simp only [hdef]
                by_cases hla :
                    s.start_next_epoch.decision = Option.none ∧ b = decide (s.epoch % 2 = 0)
                · have h0 : s.decision = Option.none := hla.1
                  rw [h0] at hd
                  exact Option.noConfusion hd
                · rw [if_neg hla]
                  refine dpres_obind hd ?_ ?_
                  · intro e₁ s₁ hp
                    have h3 := ih (Call.sbval b)
                      { s.start_next_epoch with estimated := some b } d hd
                    rw [hp] at h3
                    exact h3
                  · intro s₂ hp
                    have h3 := ih (Call.sbval b)
                      { s.start_next_epoch with estimated := some b } d hd
                    rw [hp] at h3
                    exact dpres_fallback hd (ih _ _ _ h3)
      | replay msgs =>
          cases msgs with
          | nil =>
              simp only [exec]
              exact hd
          | cons q tl =>
              obtain ⟨sender, m⟩ := q
              simp only [exec]
              refine dpres_obind hd ?_ ?_
              · intro e₁ s₁ hp
                have h3 := ih (Call.hmsg sender m) s d hd
                rw [hp] at h3
                exact h3
              · intro s₂ hp
                have h3 := ih (Call.hmsg sender m) s d hd
                rw [hp] at h3
                exact dpres_fallback hd (ih _ _ _ h3)

end Hbbft

namespace Hbbft

theorem inv_fallback {r : AResult} {a b : Agreement} (hb : Inv b) (h : Inv (stOf r a)) :
    Inv (stOf r b) := by
  rcases r with _ | x
  · exact hb
  · rcases x with p | s₂
    · exact h
    · exact h

theorem inv_obind {r : AResult} {f : Agreement → AResult} {s : Agreement}
    (hs : Inv s)
    (h1 : ∀ e₁ s₁, r = some (Except.error (e₁, s₁)) → Inv s₁)
    (h2 : ∀ s₂, r = some (Except.ok s₂) → Inv (stOf (f s₂) s)) :
    Inv (stOf (obind r f) s) := by
  rcases hr : r with _ | x
  · exact hs
  · rcases x with p | s₂
    · obtain ⟨e₁, s₁⟩ := p
      exact h1 e₁ s₁ hr
    · exact h2 s₂ hr

theorem exec_inv (n : Nat) :
    ∀ (c : Call) (s : Agreement), Inv s → callPre c s → Inv (stOf (exec n s c) s) := by
  induction n with
  | zero =>
      intro c s hI _
      exact hI
  | succ n ih =>
      intro c s hI hP
      cases c with
      | hmsg sender m =>
          obtain ⟨me, mc⟩ := m
          simp only [exec]
          split
          · exact hI
          · split
            · exact hI
            · split
              · exact hI.set_queue _
              · cases mc
                · exact inv_fallback hI (ih _ _ hI trivial)
                · exact inv_fallback hI (ih _ _ hI trivial)
                · exact inv_fallback hI (ih _ _ hI trivial)
      | hbval sender b =>
          simp only [exec]
          set rb := alModify sender BoolSet.empty (fun t => t.insert b) s.received_bval with hrb
          by_cases hcnt2 : Agreement.bval_count rb b = 2 * s.netinfo.num_faulty + 1
          · rw [if_pos hcnt2]
            by_cases hprev : s.bin_values = BinValues.None
            · rw [if_pos hprev]
              refine inv_fallback hI (ih _ _
                ((hI.set_rbval rb).set_bin _
                  (fun h0 => absurd h0 (BinValues.insert_ne_none _ _))) ?_)
              exact ⟨BinValues.insert_ne_none _ _, hI.auxNone hprev⟩
            · rw [if_neg hprev]
              by_cases hch : (s.bin_values.insert b).1 = true
              · rw [if_pos hch]
                exact inv_fallback hI (ih _ _
                  ((hI.set_rbval rb).set_bin _
                    (fun h0 => absurd h0 (BinValues.insert_ne_none _ _))) trivial)
              · rw [if_neg hch]
                exact (hI.set_rbval rb).set_bin _
                  (fun h0 => absurd h0 (BinValues.insert_ne_none _ _))
          · rw [if_neg hcnt2]
            by_cases hcnt1 : Agreement.bval_count rb b = s.netinfo.num_faulty + 1 ∧
                s.sent_bval.contains b = false
            · rw [if_pos hcnt1]
              refine inv_fallback hI (ih _ _ (hI.set_rbval rb) ?_)
              show cntBVal s.epoch b s.messages ≤ ind s.estimated.isSome
              rw [hI.sentCnt b hcnt1.2]
              exact Nat.zero_le _
            · rw [if_neg hcnt1]
              exact hI.set_rbval rb
      | sbval b =>
          simp only [exec]
          exact inv_fallback hI (ih _ _ (inv_snoc_bval hI b hP) trivial)
      | sconf =>
          simp only [exec]
          by_cases hcr : s.conf_round = true
          · rw [if_pos hcr]
            exact hI
          · rw [if_neg hcr]
            exact inv_fallback hI (ih _ _ (inv_snoc_conf hI _ (by simpa using hcr)) trivial)
      | haux sender b =>
          simp only [exec]
          by_cases hcr : s.conf_round = true
          · rw [if_pos hcr]
            exact hI
          · rw [if_neg hcr]
            by_cases hb0 : s.bin_values = BinValues.None
            · rw [if_pos hb0]
              exact hI.set_raux _
            · rw [if_neg hb0]
              split
              · exact hI.set_raux _
              · exact inv_fallback hI (ih _ _ (hI.set_raux _) trivial)
      | hconf sender v =>
          simp only [exec]
          exact inv_fallback hI (ih _ _ (hI.set_rconf _) trivial)
      | tfin =>
          simp only [exec]
          split
          · split
            · exact hI
            · exact inv_fallback hI (ih _ _ hI trivial)
          · exact hI
      | saux b =>
          simp only [exec]
          exact inv_fallback hI (ih _ _ (inv_snoc_aux hI b hP.1 hP.2) trivial)
      | icoin vals =>
          simp only [exec]
          split
          · exact hI.set_term true
          · cases hdef : vals.definite with
            | none =>
                simp only [hdef]
                have hI3 : Inv { s.start_next_epoch with
                    estimated := some (decide (s.epoch % 2 = 0)) } :=
                  (inv_advance hI).set_est_some _
                have pre3 : callPre (Call.sbval (decide (s.epoch % 2 = 0)))
                    { s.start_next_epoch with estimated := some (decide (s.epoch % 2 = 0)) } := by
                  show cntBVal (s.epoch + 1) _ s.messages ≤ _
                  rw [cntBVal_zero_of_ep (hI.future _ (Nat.lt_succ_self _))]
                  exact Nat.zero_le _
                refine inv_obind hI ?_ ?_
                · intro e₁ s₁ hp
                  have h3 := ih _ _ hI3 pre3
                  rw [hp] at h3
                  exact h3
                · intro s₂ hp
                  have h3 := ih _ _ hI3 pre3
                  rw [hp] at h3
                  exact inv_fallback hI (ih _ _ (h3.set_queue _) trivial)
            | some b =>
                simp only [hdef]
                by_cases hla :
                    s.start_next_epoch.decision = Option.none ∧ b = decide (s.epoch % 2 = 0)
                · rw [if_pos hla]
                  have hI3 : Inv { s.start_next_epoch with
                      estimated := some b, output := some b, decision := some b } :=
                    (inv_advance hI).latch b
                  have pre3 : callPre (Call.sbval b)
                      { s.start_next_epoch with
                          estimated := some b, output := some b, decision := some b } := by
                    show cntBVal (s.epoch + 1) _ s.messages ≤ _
                    rw [cntBVal_zero_of_ep (hI.future _ (Nat.lt_succ_self _))]
                    exact Nat.zero_le _
                  refine inv_obind hI ?_ ?_
                  · intro e₁ s₁ hp
                    have h3 := ih _ _ hI3 pre3
                    rw [hp] at h3
                    exact h3
                  · intro s₂ hp
                    have h3 := ih _ _ hI3 pre3
                    rw [hp] at h3
                    exact inv_fallback hI (ih _ _ (h3.set_queue _) trivial)
                · rw [if_neg hla]
                  have hI3 : Inv { s.start_next_epoch with estimated := some b } :=
                    (inv_advance hI).set_est_some _
                  have pre3 : callPre (Call.sbval b)
                      { s.start_next_epoch with estimated := some b } := by
                    show cntBVal (s.epoch + 1) _ s.messages ≤ _
                    rw [cntBVal_zero_of_ep (hI.future _ (Nat.lt_succ_self _))]
                    exact Nat.zero_le _
                  refine inv_obind hI ?_ ?_
                  · intro e₁ s₁ hp
                    have h3 := ih _ _ hI3 pre3
                    rw [hp] at h3
                    exact h3
                  · intro s₂ hp
                    have h3 := ih _ _ hI3 pre3
                    rw [hp] at h3
                    exact inv_fallback hI (ih _ _ (h3.set_queue _) trivial)
      | replay msgs =>
          cases msgs with
          | nil =>
              simp only [exec]
              exact hI
          | cons q tl =>
              obtain ⟨sender, m⟩ := q
              simp only [exec]
              refine inv_obind hI ?_ ?_
              · intro e₁ s₁ hp
                have h3 := ih (Call.hmsg sender m) s hI trivial
                rw [hp] at h3
                exact h3
              · intro s₂ hp
                have h3 := ih (Call.hmsg sender m) s hI trivial
                rw [hp] at h3
                exact inv_fallback hI (ih _ _ h3 trivial)

end Hbbft

namespace Hbbft

theorem Inv.input_latch {s : Agreement} (h : Inv s) (x : Bool) :
    Inv { s with
            decision := some x
            output := some x
            terminated := true
            estimated := some x } := by
  refine ⟨h.sentCnt, ?_, h.auxNone, h.auxCnt, h.confCnt, h.future, h.past, ?_, ?_⟩
  · intro b
    exact le_trans (h.bvalCnt b) (Nat.add_le_add_left (ind_le_one _) _)
  · intro h0
    exact absurd h0 (by simp)
  · intro b hb
    exact hb

theorem set_input_inv (n : Nat) (s : Agreement) (input : Bool) (hI : Inv s) :
    Inv (stOf (Agreement.set_input n s input) s)
    ∧ ∀ d, s.decision = some d → (stOf (Agreement.set_input n s input) s).decision = some d := by
  unfold Agreement.set_input
  by_cases hg : s.epoch ≠ 0 ∨ s.estimated.isSome = true
  · rw [if_pos hg]
    exact ⟨hI, fun d hd => hd⟩
  · rw [if_neg hg]
    push_neg at hg
    have hest : s.estimated = Option.none := by
      cases hse : s.estimated with
      | none => rfl
      | some x => exact absurd (by simp [hse]) hg.2
    have hdec : s.decision = Option.none := hI.estNone hest
    have hcnt : cntBVal s.epoch input s.messages ≤ 1 := by
      refine le_trans (hI.bvalCnt input) ?_
      rw [hest]
      simpa [ind] using ind_le_one (s.sent_bval.contains input)
    by_cases hn1 : s.netinfo.num_nodes = 1
    · rw [if_pos hn1]
      constructor
      · exact inv_fallback hI (exec_inv n _ _ (hI.input_latch input) hcnt)
      · intro d hd
        rw [hdec] at hd
        exact Option.noConfusion hd
    · rw [if_neg hn1]
      constructor
      · exact inv_fallback hI (exec_inv n _ _ (hI.set_est_some input) hcnt)
      · intro d hd
        exact dpres_fallback hd (exec_dpres n _ _ d hd)

theorem set_input_err (n : Nat) (s : Agreement) (input : Bool)
    (hg : ¬(s.epoch ≠ 0 ∨ s.estimated.isSome = true)) (p : Agreement) :
    Agreement.set_input n s input ≠ some (Except.error (AgrError.InputNotAccepted, p)) := by
  unfold Agreement.set_input
  rw [if_neg hg]
  by_cases hn1 : s.netinfo.num_nodes = 1
  · rw [if_pos hn1]
    intro h
    exact absurd (exec_err n _ _ _ _ h) (by decide)
  · rw [if_neg hn1]
    intro h
    exact absurd (exec_err n _ _ _ _ h) (by decide)

/-- All states reachable through the public interface of `Agreement`:
construction, `set_input`, `handle_message`, `next_message`, `next_output`.
A failing call also yields a state (the one carried by the error). -/
inductive Reachable : Agreement → Prop
  | init (ni : NetworkInfo) : Reachable (Agreement.new ni)
  | input (s : Agreement) (n : Nat) (b : Bool) (h : Reachable s) :
      Reachable (stOf (Agreement.set_input n s b) s)
  | handle (s : Agreement) (n : Nat) (sender : Nat) (m : AgreementMessage) (h : Reachable s) :
      Reachable (stOf (Agreement.handle_message n s sender m) s)
  | nextMsg (s : Agreement) (h : Reachable s) : Reachable (Agreement.next_message s).2
  | nextOut (s : Agreement) (h : Reachable s) : Reachable (Agreement.next_output s).2

theorem reachable_inv {s : Agreement} (h : Reachable s) : Inv s := by
  induction h with
  | init ni =>
      refine ⟨fun b _ => rfl, fun b => Nat.zero_le _, fun _ => rfl, Nat.zero_le 1,
        Nat.le_refl 0, fun e _ => rfl, fun e he => absurd he (Nat.not_lt_zero e),
        fun _ => rfl, fun b hb => Option.noConfusion hb⟩
  | input s n b h ih => exact (set_input_inv n s b ih).1
  | handle s n sender m h ih => exact exec_inv n _ _ ih trivial
  | nextMsg s h ih => exact ih.pop
  | nextOut s h ih => exact ih.out_none

end Hbbft

/-! ## Claim theorems -/

namespace Hbbft

/-- The first statement of `handle_bval`: record `b` under the sender in
`received_bval` (lines 212–215 of `mod.rs`). -/
def Agreement.record_bval (s : Agreement) (sender : Nat) (b : Bool) : Agreement :=
  { s with received_bval :=
      alModify sender BoolSet.empty (fun t => t.insert b) s.received_bval }

theorem BinValues.contains_insert_self (v : BinValues) (b : Bool) :
    (v.insert b).2.contains b = true := by
  cases v <;> cases b <;> decide

/-- C1, counterexample: on a fresh single-node instance (`N = 1`, `f = 0`)
the call `set_input false` succeeds (no error) but enqueues three outbound
messages — `BVal(0,false)`, `Aux(0,false)`, `Conf(0,{false})` — because the
`N == 1` special case does not return early; the claim that the call
returns immediately with no message ever enqueued is false. -/
theorem c1_counterexample :
    errOf (Agreement.set_input 30 (Agreement.new ⟨0, 1, 0⟩) false) = Option.none ∧
    (stOf (Agreement.set_input 30 (Agreement.new ⟨0, 1, 0⟩) false)
        (Agreement.new ⟨0, 1, 0⟩)).messages =
      [AgreementMessage.bval 0 false, AgreementMessage.aux 0 false,
       AgreementMessage.conf 0 BinValues.False] :=
  ⟨rfl, rfl⟩

/-- C1, amended: on a fresh single-node instance a successful
`set_input bit` sets `decision = output = some bit` and `terminated = true`,
but does not return at that point: it falls through, sets
`estimated = some bit` and runs `send_bval bit`, whose cascade enqueues
`BVal(0,bit)`, `Aux(0,bit)` and `Conf(0,{bit})` before the nested
`invoke_coin` observes the already-set termination flag and stops. -/
theorem c1_single_node (uid : Nat) (bit : Bool) :
    ∃ s', Agreement.set_input 30 (Agreement.new ⟨uid, 1, 0⟩) bit = some (Except.ok s') ∧
      s'.decision = some bit ∧ s'.output = some bit ∧ s'.terminated = true ∧
      s'.estimated = some bit ∧
      s'.messages = [AgreementMessage.bval 0 bit, AgreementMessage.aux 0 bit,
        AgreementMessage.conf 0 (BinValues.fromBool bit)] := by
  cases bit
  · exact ⟨_, rfl, rfl, rfl, rfl, rfl, rfl⟩
  · exact ⟨_, rfl, rfl, rfl, rfl, rfl, rfl⟩

/-- C3, counterexample: with `f = 0` (here `N = 4`), the first peer
`BVal(true)` brings the count for `true` to exactly `f + 1 = 1` with
`true ∉ sent_bval`, yet `send_bval` is not executed: the count also equals
`2f + 1`, and `handle_bval` tests that branch first, so only `Aux(0,true)`
is enqueued and `sent_bval` stays empty. -/
theorem c3_counterexample :
    Agreement.bval_count
        ((Agreement.record_bval (Agreement.new ⟨0, 4, 0⟩) 1 true).received_bval) true =
      (Agreement.new ⟨0, 4, 0⟩).netinfo.num_faulty + 1 ∧
    (Agreement.new ⟨0, 4, 0⟩).sent_bval.contains true = false ∧
    (stOf (Agreement.handle_bval 30 (Agreement.new ⟨0, 4, 0⟩) 1 true)
        (Agreement.new ⟨0, 4, 0⟩)).messages = [AgreementMessage.aux 0 true] ∧
    (stOf (Agreement.handle_bval 30 (Agreement.new ⟨0, 4, 0⟩) 1 true)
        (Agreement.new ⟨0, 4, 0⟩)).sent_bval = BoolSet.empty :=
  ⟨rfl, rfl, rfl, rfl⟩

/-- C3, amended: provided `f ≥ 1` (so that the `f + 1` and `2f + 1`
thresholds differ), a `handle_bval` call that brings the count of distinct
senders for `b` to exactly `f + 1` with `b ∉ sent_bval` executes
`send_bval b`, which enqueues `BVal(epoch, b)` and records `b` in
`sent_bval` before the local re-delivery; at any other count different
from `2f + 1`, or when `b` was already sent, the call records the `BVal`
and does nothing else. -/
theorem c3_amplification (n : Nat) (s : Agreement) (sender : Nat) (b : Bool) :
    (Agreement.bval_count (Agreement.record_bval s sender b).received_bval b =
          s.netinfo.num_faulty + 1 →
        s.netinfo.num_faulty ≠ 0 →
        s.sent_bval.contains b = false →
        Agreement.handle_bval (n + 1) s sender b =
          Agreement.send_bval n (Agreement.record_bval s sender b) b) ∧
    (∀ (m : Nat) (s' : Agreement) (b' : Bool),
        Agreement.send_bval (m + 1) s' b' =
          Agreement.handle_bval m
            { s' with
                sent_bval := s'.sent_bval.insert b'
                messages := s'.messages ++ [AgreementMessage.bval s'.epoch b'] }
            s'.netinfo.our_uid b') ∧
    (Agreement.bval_count (Agreement.record_bval s sender b).received_bval b ≠
          2 * s.netinfo.num_faulty + 1 →
        (Agreement.bval_count (Agreement.record_bval s sender b).received_bval b ≠
            s.netinfo.num_faulty + 1 ∨ s.sent_bval.contains b = true) →
        Agreement.handle_bval (n + 1) s sender b =
          some (Except.ok (Agreement.record_bval s sender b))) := by
  refine ⟨?_, ?_, ?_⟩
  · intro hcnt hf hsent
    have hcnt' : Agreement.bval_count
        (alModify sender BoolSet.empty (fun t => t.insert b) s.received_bval) b =
        s.netinfo.num_faulty + 1 := hcnt
    have hsent' : s.sent_bval.contains b = false := hsent
    show exec (n + 1) s (Call.hbval sender b) = _
    simp only [exec]
    rw [if_neg (by rw [hcnt']; omega), if_pos ⟨hcnt', hsent'⟩]
    rfl
  · intro m s' b'
    rfl
  · intro hcnt2 hother
    have hcnt2' : Agreement.bval_count
        (alModify sender BoolSet.empty (fun t => t.insert b) s.received_bval) b ≠
        2 * s.netinfo.num_faulty + 1 := hcnt2
    have hother' : Agreement.bval_count
        (alModify sender BoolSet.empty (fun t => t.insert b) s.received_bval) b ≠
          s.netinfo.num_faulty + 1 ∨ s.sent_bval.contains b = true := hother
    show exec (n + 1) s (Call.hbval sender b) = _
    simp only [exec]
    rw [if_neg hcnt2', if_neg ?_]
    · rfl
    · rcases hother' with h | h
      · intro hc
        exact h hc.1
      · intro hc
        rw [h] at hc
        exact Bool.noConfusion hc.2

end Hbbft

namespace Hbbft

/-- C4: when a `handle_bval` call brings the count of distinct senders for
`b` to exactly `2f + 1`, the node inserts `b` into `bin_values`; if
`bin_values` was `None` before the insertion it executes `send_aux b`;
otherwise, if the insertion changed `bin_values`, it calls
`try_finish_conf_round`; otherwise it does nothing further. -/
theorem c4_bin_values (n : Nat) (s : Agreement) (sender : Nat) (b : Bool)
    (hcnt : Agreement.bval_count (Agreement.record_bval s sender b).received_bval b =
      2 * s.netinfo.num_faulty + 1) :
    (s.bin_values.insert b).2.contains b = true ∧
    (s.bin_values = BinValues.None →
        Agreement.handle_bval (n + 1) s sender b =
          Agreement.send_aux n
            { Agreement.record_bval s sender b with
                bin_values := (s.bin_values.insert b).2 } b) ∧
    (s.bin_values ≠ BinValues.None → (s.bin_values.insert b).1 = true →
        Agreement.handle_bval (n + 1) s sender b =
          Agreement.try_finish_conf_round n
            { Agreement.record_bval s sender b with
                bin_values := (s.bin_values.insert b).2 }) ∧
    (s.bin_values ≠ BinValues.None → (s.bin_values.insert b).1 = false →
        Agreement.handle_bval (n + 1) s sender b =
          some (Except.ok
            { Agreement.record_bval s sender b with
                bin_values := (s.bin_values.insert b).2 })) := by
  have hcnt' : Agreement.bval_count
      (alModify sender BoolSet.empty (fun t => t.insert b) s.received_bval) b =
      2 * s.netinfo.num_faulty + 1 := hcnt
  refine ⟨BinValues.contains_insert_self _ _, ?_, ?_, ?_⟩
  · intro hN
    show exec (n + 1) s (Call.hbval sender b) = _
    simp only [exec]
    rw [if_pos hcnt', if_pos hN]
    rfl
  · intro hN hch
    show exec (n + 1) s (Call.hbval sender b) = _
    simp only [exec]
    rw [if_pos hcnt', if_neg hN, if_pos hch]
    rfl
  · intro hN hch
    show exec (n + 1) s (Call.hbval sender b) = _
    simp only [exec]
    rw [if_pos hcnt', if_neg hN, if_neg (by simp [hch])]
    rfl

/-- Witness state for C4: `N = 4`, `f = 1`, `BVal(true)` already recorded
from senders 1 and 2, so one more sender reaches the `2f + 1` threshold. -/
def c4_state : Agreement :=
  { Agreement.new ⟨0, 4, 1⟩ with
      received_bval := [(1, ⟨false, true⟩), (2, ⟨false, true⟩)] }

theorem c4_bin_values_witness :
    Agreement.handle_bval 30 c4_state 3 true =
      Agreement.send_aux 29
        { Agreement.record_bval c4_state 3 true with
            bin_values := (c4_state.bin_values.insert true).2 } true :=
  (c4_bin_values 29 c4_state 3 true rfl).2.1 rfl

/-- C5: `handle_aux` is a no-op while `conf_round` is set; otherwise it
stores `received_aux[sender] = b` (overwriting any previous value) and then
executes `send_conf` if and only if `bin_values` is non-empty and the
number of senders whose stored `Aux` bit lies in `bin_values` is at least
`N − f`. -/
theorem c5_handle_aux (n : Nat) (s : Agreement) (sender : Nat) (b : Bool) :
    (s.conf_round = true → Agreement.handle_aux (n + 1) s sender b = some (Except.ok s)) ∧
    (s.conf_round = false →
      (s.bin_values ≠ BinValues.None →
          s.netinfo.num_nodes - s.netinfo.num_faulty ≤
            Agreement.count_aux { s with received_aux := alInsert sender b s.received_aux } →
          Agreement.handle_aux (n + 1) s sender b =
            Agreement.send_conf n { s with received_aux := alInsert sender b s.received_aux }) ∧
      (s.bin_values = BinValues.None ∨
          Agreement.count_aux { s with received_aux := alInsert sender b s.received_aux } <
            s.netinfo.num_nodes - s.netinfo.num_faulty →
          Agreement.handle_aux (n + 1) s sender b =
            some (Except.ok { s with received_aux := alInsert sender b s.received_aux }))) := by
  refine ⟨?_, ?_⟩
  · intro hcr
    show exec (n + 1) s (Call.haux sender b) = _
    simp only [exec]
    rw [if_pos hcr]
  · intro hcr
    refine ⟨?_, ?_⟩
    · intro hbin hge
      have hge' : ¬ Agreement.count_aux
          { s with received_aux := alInsert sender b s.received_aux } <
          s.netinfo.num_nodes - s.netinfo.num_faulty := Nat.not_lt.mpr hge
      show exec (n + 1) s (Call.haux sender b) = _
      simp only [exec]
      rw [if_neg (by simp [hcr]), if_neg hbin, if_neg hge']
      rfl
    · intro hor
      show exec (n + 1) s (Call.haux sender b) = _
      simp only [exec]
      rcases hor with hbin | hlt
      · rw [if_neg (by simp [hcr]), if_pos hbin]
      · by_cases hbin : s.bin_values = BinValues.None
        · rw [if_neg (by simp [hcr]), if_pos hbin]
        · rw [if_neg (by simp [hcr]), if_neg hbin, if_pos hlt]

theorem c5_handle_aux_witness :
    Agreement.handle_aux 30 { Agreement.new ⟨0, 4, 1⟩ with conf_round := true } 2 true =
      some (Except.ok { Agreement.new ⟨0, 4, 1⟩ with conf_round := true }) ∧
    Agreement.handle_aux 30 (Agreement.new ⟨0, 4, 1⟩) 2 true =
      some (Except.ok
        { Agreement.new ⟨0, 4, 1⟩ with received_aux := alInsert 2 true [] }) :=
  ⟨(c5_handle_aux 29 { Agreement.new ⟨0, 4, 1⟩ with conf_round := true } 2 true).1 rfl,
   ((c5_handle_aux 29 (Agreement.new ⟨0, 4, 1⟩) 2 true).2 rfl).2 (Or.inl rfl)⟩

end Hbbft

namespace Hbbft

/-- C6: `try_finish_conf_round` is a no-op when `conf_round` is unset or
when fewer than `N − f` received `Conf` values are subsets of `bin_values`;
otherwise it invokes the coin on the union of exactly the subset-filtered
`Conf` values. The check runs on every new `Conf` (via `handle_conf`) and
on every `BVal`-induced growth of a non-empty `bin_values` (the growth of
an empty `bin_values` goes through `send_aux` instead, and `conf_round` is
still unset then, so the check would be vacuous). -/
theorem c6_try_finish (n : Nat) (s : Agreement) (sender : Nat) (v : BinValues) (b : Bool) :
    (s.conf_round = false →
        Agreement.try_finish_conf_round (n + 1) s = some (Except.ok s)) ∧
    (s.conf_round = true →
        (Agreement.count_conf s).1 < s.netinfo.num_nodes - s.netinfo.num_faulty →
        Agreement.try_finish_conf_round (n + 1) s = some (Except.ok s)) ∧
    (s.conf_round = true →
        s.netinfo.num_nodes - s.netinfo.num_faulty ≤ (Agreement.count_conf s).1 →
        Agreement.try_finish_conf_round (n + 1) s =
          Agreement.invoke_coin n s (Agreement.count_conf s).2) ∧
    ((Agreement.count_conf s).2 = BinValues.collect
        ((s.received_conf.filter fun p => p.2.is_subset s.bin_values).map fun p => p.2)) ∧
    (Agreement.handle_conf (n + 1) s sender v =
        Agreement.try_finish_conf_round n
          { s with received_conf := alInsert sender v s.received_conf }) ∧
    (∀ c : Bool, s.bin_values = BinValues.fromBool c →
        Agreement.bval_count (Agreement.record_bval s sender b).received_bval b =
          2 * s.netinfo.num_faulty + 1 →
        (s.bin_values.insert b).1 = true →
        Agreement.handle_bval (n + 1) s sender b =
          Agreement.try_finish_conf_round n
            { Agreement.record_bval s sender b with
                bin_values := (s.bin_values.insert b).2 }) := by
  refine ⟨?_, ?_, ?_, rfl, rfl, ?_⟩
  · intro hcr
    show exec (n + 1) s Call.tfin = _
    simp only [exec]
    rw [if_neg (by simp [hcr])]
  · intro hcr hlt
    show exec (n + 1) s Call.tfin = _
    simp only [exec]
    rw [if_pos hcr, if_pos hlt]
  · intro hcr hge
    show exec (n + 1) s Call.tfin = _
    simp only [exec]
    rw [if_pos hcr, if_neg (Nat.not_lt.mpr hge)]
    rfl
  · intro c hbin hcnt hch
    have hcnt' : Agreement.bval_count
        (alModify sender BoolSet.empty (fun t => t.insert b) s.received_bval) b =
        2 * s.netinfo.num_faulty + 1 := hcnt
    have hN : s.bin_values ≠ BinValues.None := by
      rw [hbin]
      cases c <;> simp [BinValues.fromBool]
    show exec (n + 1) s (Call.hbval sender b) = _
    simp only [exec]
    rw [if_pos hcnt', if_neg hN, if_pos hch]
    rfl

/-- Witness state for C6: `conf_round` unset, so `try_finish_conf_round`
returns with no effect. -/
theorem c6_try_finish_witness :
    Agreement.try_finish_conf_round 30 (Agreement.new ⟨0, 4, 1⟩) =
      some (Except.ok (Agreement.new ⟨0, 4, 1⟩)) :=
  (c6_try_finish 29 (Agreement.new ⟨0, 4, 1⟩) 1 BinValues.Both true).1 rfl

/-- The reachable entry state refuting C2 as stated: the `N = 1`
`set_input(false)` cascade (see C1) leaves `terminated = true` with
`decision = Some(false)`, and the epoch-0 coin is `true`. -/
def c2_state : Agreement :=
  stOf (Agreement.set_input 30 (Agreement.new ⟨0, 1, 0⟩) false) (Agreement.new ⟨0, 1, 0⟩)

/-- C2, counterexample: at a reachable state with `terminated` already set
and `decision = Some(false) ≠ Some(coin)`, `invoke_coin` still returns
early (`terminated = terminated || decision == Some(coin)` at
mod.rs:376-380): the epoch does not advance, no message is enqueued and
nothing is replayed — the claim's "otherwise the epoch advances" is false. -/
theorem c2_counterexample :
    Reachable c2_state ∧ c2_state.terminated = true ∧ c2_state.epoch = 0 ∧
    c2_state.decision = some false ∧
    c2_state.decision ≠ some (decide (c2_state.epoch % 2 = 0)) ∧
    Agreement.invoke_coin 10 c2_state BinValues.False =
      some (Except.ok { c2_state with terminated := true }) ∧
    (stOf (Agreement.invoke_coin 10 c2_state BinValues.False) c2_state).epoch = 0 ∧
    (stOf (Agreement.invoke_coin 10 c2_state BinValues.False) c2_state).messages =
      c2_state.messages := by
  refine ⟨?_, rfl, rfl, rfl, by decide, rfl, rfl, rfl⟩
  exact Reachable.input (Agreement.new ⟨0, 1, 0⟩) 30 false (Reachable.init ⟨0, 1, 0⟩)

/-- C2, amended: the coin for the current epoch is `epoch % 2 == 0`; the
call sets `terminated = terminated || (decision == Some(coin))`, and when
that flag is set — i.e. when `decision` equals the coin *or the instance
was already terminated* — it returns without advancing the epoch;
otherwise the epoch advances with all per-epoch state cleared, the next
estimate is the definite value of `vals` (or the coin when `vals` is not a
singleton), `output`/`decision` are latched exactly when `decision` was
unset and the definite value equals the coin, and the call finishes by
`send_bval` of the new estimate followed by a replay of the drained
future-epoch buffer. -/
theorem c2_invoke_coin (n : Nat) (s : Agreement) (vals : BinValues) :
    (s.terminated = true ∨ s.decision = some (decide (s.epoch % 2 = 0)) →
        Agreement.invoke_coin (n + 1) s vals =
          some (Except.ok { s with terminated := true })) ∧
    (s.terminated = false → s.decision ≠ some (decide (s.epoch % 2 = 0)) →
        ∃ est s3,
          Agreement.invoke_coin (n + 1) s vals =
            obind (Agreement.send_bval n s3 est) (fun s4 =>
              Agreement.replay n { s4 with incoming_queue := [] } s4.incoming_queue) ∧
          s3.epoch = s.epoch + 1 ∧ s3.bin_values = BinValues.None ∧
          s3.received_bval = [] ∧ s3.sent_bval = BoolSet.empty ∧
          s3.received_aux = [] ∧ s3.received_conf = [] ∧ s3.conf_round = false ∧
          s3.incoming_queue = s.incoming_queue ∧ s3.messages = s.messages ∧
          s3.terminated = false ∧ s3.estimated = some est ∧
          (∀ b, vals.definite = some b →
              est = b ∧
              (if s.decision = Option.none ∧ b = decide (s.epoch % 2 = 0) then
                  s3.output = some b ∧ s3.decision = some b
                else s3.output = s.output ∧ s3.decision = s.decision)) ∧
          (vals.definite = Option.none →
              est = decide (s.epoch % 2 = 0) ∧ s3.output = s.output ∧
              s3.decision = s.decision)) := by
  constructor
  · intro hdec
    show exec (n + 1) s (Call.icoin vals) = _
    simp only [exec]
    rw [if_pos hdec]
  · intro hterm hdec
    show ∃ est s3, exec (n + 1) s (Call.icoin vals) = _ ∧ _
    simp only [exec]
    rw [if_neg (by rintro (h | h); exact absurd h (by simp [hterm]); exact hdec h)]
    cases hdef : vals.definite with
    | none =>
        simp only [hdef]
        refine ⟨decide (s.epoch % 2 = 0),
          { s.start_next_epoch with estimated := some (decide (s.epoch % 2 = 0)) },
          rfl, rfl, rfl, rfl, rfl, rfl, rfl, rfl, rfl, rfl, ?_, rfl, ?_, ?_⟩
        · exact hterm
        · intro b hb
          exact Option.noConfusion hb
        · intro _
          exact ⟨rfl, rfl, rfl⟩
    | some b =>
        simp only [hdef]
        by_cases hla : s.decision = Option.none ∧ b = decide (s.epoch % 2 = 0)
        · have hla' : s.start_next_epoch.decision = Option.none ∧
              b = decide (s.epoch % 2 = 0) := hla
          rw [if_pos hla']
          refine ⟨b,
            { s.start_next_epoch with
                estimated := some b
                output := some b
                decision := some b },
            rfl, rfl, rfl, rfl, rfl, rfl, rfl, rfl, rfl, rfl, ?_, rfl, ?_, ?_⟩
          · exact hterm
          · intro b' hb'
            injection hb' with hbb
            subst hbb
            rw [if_pos hla]
            exact ⟨rfl, rfl, rfl⟩
          · intro h0
            exact Option.noConfusion h0
        · have hla' : ¬(s.start_next_epoch.decision = Option.none ∧
              b = decide (s.epoch % 2 = 0)) := hla
          rw [if_neg hla']
          refine ⟨b, { s.start_next_epoch with estimated := some b },
            rfl, rfl, rfl, rfl, rfl, rfl, rfl, rfl, rfl, rfl, ?_, rfl, ?_, ?_⟩
          · exact hterm
          · intro b' hb'
            injection hb' with hbb
            subst hbb
            rw [if_neg hla]
            exact ⟨rfl, rfl, rfl⟩
          · intro h0
            exact Option.noConfusion h0

theorem c2_invoke_coin_witness :
    Agreement.invoke_coin 1 { Agreement.new ⟨0, 4, 1⟩ with decision := some true }
        BinValues.Both =
      some (Except.ok
        { Agreement.new ⟨0, 4, 1⟩ with decision := some true, terminated := true }) ∧
    Agreement.invoke_coin 1 { Agreement.new ⟨0, 4, 1⟩ with terminated := true }
        BinValues.Both =
      some (Except.ok { Agreement.new ⟨0, 4, 1⟩ with terminated := true }) :=
  ⟨(c2_invoke_coin 0 { Agreement.new ⟨0, 4, 1⟩ with decision := some true }
      BinValues.Both).1 (Or.inr rfl),
   (c2_invoke_coin 0 { Agreement.new ⟨0, 4, 1⟩ with terminated := true }
      BinValues.Both).1 (Or.inl rfl)⟩

end Hbbft

namespace Hbbft

/-- The double-`BVal` trace for C7: `N = 4`, `f = 1`; two peer `BVal(0,true)`
messages trigger the `f+1` amplification, and a subsequent `set_input true`
(still accepted, because `estimated` is unset) runs `send_bval true` again. -/
def c7_s1 : Agreement :=
  stOf (Agreement.handle_message 50 (Agreement.new ⟨0, 4, 1⟩) 1 (AgreementMessage.bval 0 true))
    (Agreement.new ⟨0, 4, 1⟩)

def c7_s2 : Agreement :=
  stOf (Agreement.handle_message 50 c7_s1 2 (AgreementMessage.bval 0 true)) c7_s1

def c7_s3 : Agreement :=
  stOf (Agreement.set_input 50 c7_s2 true) c7_s2

/-- C7, counterexample: a reachable state whose outbound queue holds two
`BVal(0, true)` messages — `set_input` after an `f+1`-amplified `BVal` of
the same bit enqueues a duplicate, so "at most one `BVal` per bit per
epoch" is false as stated. -/
theorem c7_counterexample :
    Reachable c7_s3 ∧ c7_s3.epoch = 0 ∧ cntBVal 0 true c7_s3.messages = 2 := by
  refine ⟨?_, rfl, rfl⟩
  exact Reachable.input c7_s2 50 true
    (Reachable.handle c7_s1 50 2 (AgreementMessage.bval 0 true)
      (Reachable.handle (Agreement.new ⟨0, 4, 1⟩) 50 1 (AgreementMessage.bval 0 true)
        (Reachable.init ⟨0, 4, 1⟩)))

/-- C7, amended: in every reachable state the outbound queue holds, per
epoch, at most two `BVal` messages per bit (two only through `set_input`
after an amplification of the same bit), at most one `Aux`, and at most
one `Conf`. -/
theorem c7_at_most_once (s : Agreement) (h : Reachable s) (e : Nat) (b : Bool) :
    cntBVal e b s.messages ≤ 2 ∧ cntAuxE e s.messages ≤ 1 ∧ cntConfE e s.messages ≤ 1 := by
  have hI := reachable_inv h
  rcases Nat.lt_trichotomy e s.epoch with hlt | heq | hgt
  · exact ⟨(hI.past e hlt).1 b, (hI.past e hlt).2.1, (hI.past e hlt).2.2⟩
  · subst heq
    refine ⟨le_trans (hI.bvalCnt b) ?_, hI.auxCnt, le_trans hI.confCnt (ind_le_one _)⟩
    exact Nat.add_le_add (ind_le_one _) (ind_le_one _)
  · have hz := hI.future e hgt
    rw [cntBVal_zero_of_ep hz b, cntAuxE_zero_of_ep hz, cntConfE_zero_of_ep hz]
    exact ⟨Nat.zero_le 2, Nat.zero_le 1, Nat.zero_le 1⟩

theorem c7_at_most_once_witness :
    cntBVal 0 true (Agreement.new ⟨0, 4, 1⟩).messages ≤ 2 ∧
    cntAuxE 0 (Agreement.new ⟨0, 4, 1⟩).messages ≤ 1 ∧
    cntConfE 0 (Agreement.new ⟨0, 4, 1⟩).messages ≤ 1 :=
  c7_at_most_once (Agreement.new ⟨0, 4, 1⟩) (Reachable.init ⟨0, 4, 1⟩) 0 true

/-- C8: in every reachable state, a set `decision` survives any further
`set_input` or `handle_message` call (including those that fail), is not
touched by `next_output`/`next_message`, and whenever `output` holds a
value the same value is already latched in `decision` — so the operation
that set `output` latched `decision` to the same bit. -/
theorem c8_decision (s : Agreement) (h : Reachable s) :
    (∀ (d : Bool) (n : Nat) (b : Bool), s.decision = some d →
        (stOf (Agreement.set_input n s b) s).decision = some d) ∧
    (∀ (d : Bool) (n sender : Nat) (m : AgreementMessage), s.decision = some d →
        (stOf (Agreement.handle_message n s sender m) s).decision = some d) ∧
    (Agreement.next_output s).2.decision = s.decision ∧
    (Agreement.next_message s).2.decision = s.decision ∧
    (∀ b : Bool, s.output = some b → s.decision = some b) := by
  have hI := reachable_inv h
  refine ⟨?_, ?_, rfl, rfl, hI.outDec⟩
  · intro d n b hd
    exact (set_input_inv n s b hI).2 d hd
  · intro d n sender m hd
    exact exec_dpres n _ s d hd

/-- A reachable decided state: the single-node instance after `set_input`. -/
def c8_state : Agreement :=
  stOf (Agreement.set_input 30 (Agreement.new ⟨0, 1, 0⟩) false) (Agreement.new ⟨0, 1, 0⟩)

theorem c8_decision_witness :
    (stOf (Agreement.handle_message 5 c8_state 1 (AgreementMessage.bval 0 true))
        c8_state).decision = some false :=
  (c8_decision c8_state
      (Reachable.input (Agreement.new ⟨0, 1, 0⟩) 30 false (Reachable.init ⟨0, 1, 0⟩))).2.1
    false 5 1 (AgreementMessage.bval 0 true) rfl

/-- C9: `set_input` fails with `InputNotAccepted` — leaving every field
unchanged (the error carries exactly the pre-state) — if and only if
`epoch ≠ 0` or `estimated` is set; `accepts_input` returns `true` exactly
when that precondition for success holds. -/
theorem c9_input_guard (n : Nat) (s : Agreement) (b : Bool) :
    ((s.epoch ≠ 0 ∨ s.estimated.isSome = true) ↔
        Agreement.set_input n s b =
          some (Except.error (AgrError.InputNotAccepted, s))) ∧
    (Agreement.accepts_input s = true ↔ (s.epoch = 0 ∧ s.estimated = Option.none)) ∧
    (Agreement.accepts_input s = true ↔ ¬(s.epoch ≠ 0 ∨ s.estimated.isSome = true)) := by
  refine ⟨⟨?_, ?_⟩, ?_, ?_⟩
  · intro hg
    unfold Agreement.set_input
    rw [if_pos hg]
  · intro heq
    by_cases hg : s.epoch ≠ 0 ∨ s.estimated.isSome = true
    · exact hg
    · exact absurd heq (set_input_err n s b hg s)
  · cases hse : s.estimated <;> simp [Agreement.accepts_input, hse]
  · cases hse : s.estimated <;> simp [Agreement.accepts_input, hse]

/-- The C10 trace: a single-node instance buffers two epoch-1 messages,
then one epoch-0 `BVal` drives the cascade `handle_bval → … → invoke_coin`
across epochs until termination fires inside a nested coin invocation;
the replay loop of the enclosing `invoke_coin` then hits the terminated
check and the whole call fails with `Terminated`. -/
def c10_s1 : Agreement :=
  stOf (Agreement.handle_message 100 (Agreement.new ⟨0, 1, 0⟩) 1 (AgreementMessage.aux 1 true))
    (Agreement.new ⟨0, 1, 0⟩)

def c10_s2 : Agreement :=
  stOf (Agreement.handle_message 100 c10_s1 1 (AgreementMessage.aux 1 false)) c10_s1

def c10_res : AResult :=
  Agreement.handle_message 100 c10_s2 1 (AgreementMessage.bval 0 true)

/-- C10: a reachable, non-terminated state with a non-empty future-epoch
buffer on which one `handle_message` call returns `Terminated`: the
nested coin invocation sets `terminated` during the call, the replay
loop's next nested `handle_message` fails, the error propagates out, and
the drained buffered messages are discarded — the final queue is empty. -/
theorem c10_terminated_replay :
    Reachable c10_s2 ∧ c10_s2.terminated = false ∧ c10_s2.incoming_queue.length = 2 ∧
    errOf c10_res = some AgrError.Terminated ∧
    (stOf c10_res c10_s2).terminated = true ∧
    (stOf c10_res c10_s2).incoming_queue = [] := by
  refine ⟨?_, rfl, rfl, rfl, rfl, rfl⟩
  exact Reachable.handle c10_s1 100 1 (AgreementMessage.aux 1 false)
    (Reachable.handle (Agreement.new ⟨0, 1, 0⟩) 100 1 (AgreementMessage.aux 1 true)
      (Reachable.init ⟨0, 1, 0⟩))

end Hbbft

namespace Hbbft

theorem c3_amplification_witness :
    Agreement.handle_bval 30
        (stOf (Agreement.handle_bval 30 (Agreement.new ⟨0, 4, 1⟩) 2 true)
          (Agreement.new ⟨0, 4, 1⟩)) 1 true =
      Agreement.send_bval 29
        (Agreement.record_bval
          (stOf (Agreement.handle_bval 30 (Agreement.new ⟨0, 4, 1⟩) 2 true)
            (Agreement.new ⟨0, 4, 1⟩)) 1 true) true :=
  (c3_amplification 29
      (stOf (Agreement.handle_bval 30 (Agreement.new ⟨0, 4, 1⟩) 2 true)
        (Agreement.new ⟨0, 4, 1⟩)) 1 true).1 rfl (by decide) rfl

theorem c9_input_guard_witness :
    Agreement.set_input 5 { Agreement.new ⟨0, 4, 1⟩ with epoch := 3 } true =
      some (Except.error (AgrError.InputNotAccepted,
        { Agreement.new ⟨0, 4, 1⟩ with epoch := 3 })) :=
  (c9_input_guard 5 { Agreement.new ⟨0, 4, 1⟩ with epoch := 3 } true).1.1
    (Or.inl (by decide))

end Hbbft
